import Mathlib

/-!
Verification of the `acled_concat` repository (`acled_concat/cli.py`): a batch
tool that consolidates sequentially-exported ACLED CSV shards into one
deduplicated, chronologically ordered table.

The embedding is shallow:

* a table handled by the merge engine (`_concat_two_dfs`, the fold in
  `concat`) is a `List Row`, where `Row` carries the columns the merge logic
  reads (`event_id_cnty`, `event_date`, `timestamp`, `_orig_fname`) plus one
  opaque field `attrs` standing for all remaining retained columns, carried
  through unchanged;
* dates and timestamps are `Int` (any totally ordered values; pandas
  `Timestamp` comparisons become `Int` comparisons);
* pandas `sort_values` on a list of keys is a stable lexicographic sort;
  it is modelled by Mathlib's stable `List.insertionSort` with the
  corresponding lexicographic order;
* string comparison (used by pandas to order `event_id_cnty` values) is
  lexicographic on code points, modelled by `charListLt`;
* `DataFrame.empty`, `drop_duplicates(keep="last")`, `pd.concat`, CSV file
  discovery and the schema normalizer are modelled by the executable
  functions below; raised exceptions become `Except` errors.
-/

/-- Decidable equality for `Except`, so that concrete runs of the modelled
functions can be checked by `decide`. -/
instance {ε α : Type} [DecidableEq ε] [DecidableEq α] : DecidableEq (Except ε α) := fun x y =>
  match x, y with
  | .ok a, .ok b => if h : a = b then .isTrue (by rw [h]) else .isFalse (by simp [h])
  | .error e, .error f => if h : e = f then .isTrue (by rw [h]) else .isFalse (by simp [h])
  | .ok _, .error _ => .isFalse (by simp)
  | .error _, .ok _ => .isFalse (by simp)

/-! ### Lexicographic order on strings

Python and pandas compare strings lexicographically by code point.  `String`'s
built-in `<` does not reduce in the kernel, so we define the same order on the
underlying character lists. -/

/-- Strict lexicographic order on character lists, comparing code points. -/
def charListLt : List Char → List Char → Bool
  | [], [] => false
  | [], _ :: _ => true
  | _ :: _, [] => false
  | a :: as, b :: bs =>
    if a.toNat < b.toNat then true
    else if b.toNat < a.toNat then false
    else charListLt as bs

/-- Strict lexicographic order on strings (Python `<` on `str`). -/
def strLtP (a b : String) : Prop := charListLt a.data b.data = true

instance : DecidableRel strLtP := fun a b => by
  unfold strLtP; infer_instance

/-- Non-strict lexicographic order on strings (Python `<=` on `str`). -/
def strLeP (a b : String) : Prop := strLtP a b ∨ a = b

instance : DecidableRel strLeP := fun a b => by
  unfold strLeP; exact instDecidableOr

/-! ### The merge engine's data model (`_concat_two_dfs` in `cli.py`)

A row of a normalized ACLED table.  The merge engine in `cli.py` only reads
`event_id_cnty`, `event_date` and `timestamp`; every other retained column
(including the provenance column `_orig_fname`) is just carried along, so we
keep `_orig_fname` explicitly (the spec's claims mention provenance) and
collapse the remaining descriptive columns into the opaque field `attrs`. -/
structure Row where
  event_id_cnty : String
  event_date : Int
  timestamp : Int
  _orig_fname : String
  attrs : String
  deriving DecidableEq, Repr

/-- Sort key of `df.sort_values(["event_id_cnty", "timestamp"])` in
`_concat_two_dfs`: lexicographic on the pair (id, timestamp). -/
def mergeKeyLE (a b : Row) : Prop :=
  strLtP a.event_id_cnty b.event_id_cnty ∨
    (a.event_id_cnty = b.event_id_cnty ∧ a.timestamp ≤ b.timestamp)

instance : DecidableRel mergeKeyLE := fun a b => by
  unfold mergeKeyLE; exact instDecidableOr

/-- Sort key of `df.sort_values(["event_date", "event_id_cnty"])` in
`_concat_two_dfs`: lexicographic on the pair (date, id). -/
def dateIdLE (a b : Row) : Prop :=
  a.event_date < b.event_date ∨
    (a.event_date = b.event_date ∧ strLeP a.event_id_cnty b.event_id_cnty)

instance : DecidableRel dateIdLE := fun a b => by
  unfold dateIdLE; exact instDecidableOr

/-- The `event_id_cnty` column of a table (`df['event_id_cnty']`), used to
state duplicate-freeness: `df.duplicated('event_id_cnty').sum() == 0` is
`(rowIds df).Nodup`. -/
def rowIds (df : List Row) : List String := df.map fun r => r.event_id_cnty

/-- Model of `df.drop_duplicates(["event_id_cnty"], keep="last")`: keep, in
order, exactly those rows not followed by a later row with the same
`event_id_cnty`. -/
def dropDuplicatesKeepLast : List Row → List Row
  | [] => []
  | r :: rest =>
    if rest.any (fun s => s.event_id_cnty == r.event_id_cnty) then
      dropDuplicatesKeepLast rest
    else
      r :: dropDuplicatesKeepLast rest

/-- Model of `df1.event_date.max()` (`cli.py` line 166); the default value is
irrelevant because the code only reads it on non-empty tables. -/
def maxEventDate (df : List Row) : Int :=
  ((df.map fun r => r.event_date).max?).getD 0

/-- Model of `df2.event_date.min()` (`cli.py` line 167). -/
def minEventDate (df : List Row) : Int :=
  ((df.map fun r => r.event_date).min?).getD 0

/-- Message of the `RuntimeError` raised for empty inputs (`cli.py` line 164). -/
def emptyShardMsg : String := "Cannot merge empty ACLED shards."

/-- Message of the `RuntimeError` raised for a date gap (`cli.py` lines 170-172). -/
def overlapMsg : String := "ACLED shards must have overlapping dates to avoid data gaps."

/-- Model of `_concat_two_dfs` (`cli.py` lines 137-179): reject empty inputs,
reject a date gap (`max1 < min2`), then concatenate, stable-sort by
`(event_id_cnty, timestamp)`, drop duplicate ids keeping the last row, and
re-sort by `(event_date, event_id_cnty)`.  `reset_index` has no counterpart
in the list model. -/
def _concat_two_dfs (df1 df2 : List Row) : Except String (List Row) :=
  if df1.isEmpty || df2.isEmpty then .error emptyShardMsg
  else if maxEventDate df1 < minEventDate df2 then .error overlapMsg
  else .ok (List.insertionSort dateIdLE
    (dropDuplicatesKeepLast (List.insertionSort mergeKeyLE (df1 ++ df2))))

/-- Model of the fold in `concat` (`cli.py` lines 59-62): start from the first
loaded table and merge each following table into the accumulator. -/
def concatLoop (consolidated : List Row) : List (List Row) → Except String (List Row)
  | [] => .ok consolidated
  | next :: rest =>
    match _concat_two_dfs consolidated next with
    | .error e => .error e
    | .ok c => concatLoop c rest

/-- The same fold as `concatLoop`, returning the list of accumulator values
observed after each fold step (the values checked by the assertion on
`cli.py` line 63). -/
def concatAccums (consolidated : List Row) : List (List Row) → Except String (List (List Row))
  | [] => .ok []
  | next :: rest =>
    match _concat_two_dfs consolidated next with
    | .error e => .error e
    | .ok c =>
      match concatAccums c rest with
      | .error e => .error e
      | .ok accs => .ok (c :: accs)

/-! ### Shard discovery (`_get_lexically_sorted_csv_paths` in `cli.py`) -/

/-- Model of `path.name.startswith('consolidated_acled')` (`cli.py` line 105). -/
def isOutputFile (name : String) : Bool :=
  "consolidated_acled".data.isPrefixOf name.data

/-- Numeric value of an ASCII digit character. -/
def digitVal (c : Char) : Nat := c.toNat - '0'.toNat

/-- Model of matching the regex `^(\d{2})-acled.*\.csv$` (`cli.py` line 99)
against a character list, returning `int(match.group(1))` on success: two
digits, the literal `-acled`, any characters other than a newline, and the
literal `.csv`.  (`\d` is modelled as ASCII digits; Python's `$` also matches
just before a single trailing newline, which the caller `parseSeqNum`
handles.) -/
def acledSeqNum : List Char → Option Nat
  | d1 :: d2 :: rest =>
    if d1.isDigit && d2.isDigit
        && rest.take 6 == ['-', 'a', 'c', 'l', 'e', 'd']
        && decide (10 ≤ rest.length)
        && rest.drop (rest.length - 4) == ['.', 'c', 's', 'v']
        && ((rest.take (rest.length - 4)).drop 6).all (fun c => c != '\n')
    then some (10 * digitVal d1 + digitVal d2)
    else none
  | _ => none

/-- Model of `pattern.match(path.name)` followed by `int(match.group(1))`
(`cli.py` lines 108-110): `$` may match just before one trailing newline, so
such a newline is stripped before the anchored match. -/
def parseSeqNum (name : String) : Option Nat :=
  let cs := name.data
  acledSeqNum (if cs.getLast? == some '\n' then cs.dropLast else cs)

/-- Model of the classification loop (`cli.py` lines 104-113): walk the
directory listing, skip known output files, and split the rest into valid
`(prefix, name)` pairs and invalid names, preserving listing order. -/
def classifyCsvs : List String → List (Nat × String) × List String
  | [] => ([], [])
  | name :: rest =>
    let (valid, invalid) := classifyCsvs rest
    if isOutputFile name then (valid, invalid)
    else
      match parseSeqNum name with
      | some p => ((p, name) :: valid, invalid)
      | none => (valid, name :: invalid)

/-- Errors raised by shard discovery.  `invalidFiles names` models the
`RuntimeError` of `cli.py` lines 115-128, whose message enumerates exactly
`names` (one `  - name` line per entry); `tooFewValidFiles` models the
`RuntimeError` of line 131. -/
inductive DiscoveryError where
  | invalidFiles (names : List String)
  | tooFewValidFiles
  deriving DecidableEq, Repr

/-- Sort key of `sorted(valid_files, key=lambda x: x[0])` (`cli.py` line 133):
compare only the numeric prefix; Python's `sorted` is stable. -/
def bySeqNumLE (a b : Nat × String) : Prop := a.1 ≤ b.1

instance : DecidableRel bySeqNumLE := fun a b => by
  unfold bySeqNumLE; exact Nat.decLe a.1 b.1

/-- Model of `_get_lexically_sorted_csv_paths` (`cli.py` lines 72-134) on the
directory listing of `*.csv` names (in arbitrary filesystem order): classify
the names, fail naming every invalid file, fail when fewer than two valid
files remain, else return the names stably sorted by numeric prefix. -/
def _get_lexically_sorted_csv_paths (allCsvs : List String) : Except DiscoveryError (List String) :=
  if ((classifyCsvs allCsvs).2).isEmpty then
    if ((classifyCsvs allCsvs).1).length < 2 then .error .tooFewValidFiles
    else .ok ((List.insertionSort bySeqNumLE (classifyCsvs allCsvs).1).map Prod.snd)
  else .error (.invalidFiles (classifyCsvs allCsvs).2)

/-! ### Schema normalizer (`_format_df` in `cli.py`)

`_format_df` works column-wise, so here a table is column-oriented: an
association list from column name to the list of cell values of that
column. -/

/-- A cell value: ACLED columns hold numbers or text; `vNone` is the missing
value pandas would produce for an unmapped key (never reachable behind the
validation in `_format_df`). -/
inductive Value where
  | vInt (n : Int)
  | vStr (s : String)
  | vNone
  deriving DecidableEq, Repr

/-- A column-oriented table: column name to cell values, in column order. -/
abbrev ColTable := List (String × List Value)

/-- The column names of a table (`df.columns`). -/
def colNames (df : ColTable) : List String := df.map Prod.fst

/-- The values of the named column (first column of that name); `[]` when the
column is absent (the code only reads columns it has checked for). -/
def getCol (df : ColTable) (c : String) : List Value := (df.lookup c).getD []

/-- Errors raised by `_format_df`.  `unmappedIsoCodes codes` models the
`ValueError` of `cli.py` lines 231-234, whose message names exactly the set
`codes`; `missingColumns cols` models the `ValueError` of line 240;
`missingIsoColumn` models the `AttributeError` Python raises on `df.iso`
(line 230) when neither `iso3` nor `iso` exists. -/
inductive FormatError where
  | unmappedIsoCodes (codes : List Value)
  | missingColumns (cols : List String)
  | missingIsoColumn
  deriving DecidableEq, Repr

/-- The fixed retained-column list `RETAINED_COLS` (`cli.py` lines 12-20). -/
def RETAINED_COLS : List String := [
  "event_id_cnty", "iso", "iso3", "event_date", "year",
  "time_precision", "event_type", "sub_event_type",
  "actor1", "assoc_actor_1", "inter1", "actor2", "assoc_actor_2",
  "inter2", "interaction", "region", "country",
  "admin1", "admin2", "admin3", "location", "latitude", "longitude",
  "geo_precision", "source", "source_scale", "notes", "fatalities",
  "timestamp", "_orig_fname"]

/-- Model of the tail of `_format_df` (`cli.py` lines 239-242): verify every
retained column exists, then project the table to exactly `RETAINED_COLS`, in
that order. -/
def checkRetained (df : ColTable) : Except FormatError ColTable :=
  if (RETAINED_COLS.filter (fun c => decide (c ∉ colNames df))).isEmpty then
    .ok (RETAINED_COLS.map (fun c => (c, getCol df c)))
  else .error (.missingColumns (RETAINED_COLS.filter (fun c => decide (c ∉ colNames df))))

/-- Model of `_format_df` (`cli.py` lines 204-242).

Modelled from the spec: the static lookup table `ISO_MAP` is imported from
`iso_map.py`, a module of this repository that is not among the provided
source files; per the spec it is "a fixed static lookup table" mapping
numeric country codes to three-letter codes, so it is passed here as an
explicit association-list parameter and the theorems hold for every such
table.

When the table lacks an `iso3` column, every `iso` value must be a key of
`ISO_MAP` (else fail naming the set of unmapped codes), and `iso3` is the
image of the `iso` column under the map, appended as a new column; then the
retained-column check and projection run. -/
def _format_df (ISO_MAP : List (Value × Value)) (df : ColTable) : Except FormatError ColTable :=
  if "iso3" ∈ colNames df then
    checkRetained df
  else if "iso" ∈ colNames df then
    if (((getCol df "iso").filter (fun v => (ISO_MAP.lookup v).isNone)).dedup).isEmpty then
      checkRetained (df ++
        [("iso3", (getCol df "iso").map (fun v => (ISO_MAP.lookup v).getD Value.vNone))])
    else .error (.unmappedIsoCodes
      (((getCol df "iso").filter (fun v => (ISO_MAP.lookup v).isNone)).dedup))
  else .error .missingIsoColumn

/-! ### Order lemmas for the sort keys -/

theorem charListLt_irrefl : ∀ as : List Char, charListLt as as = false
  | [] => rfl
  | a :: as => by
    simp [charListLt, charListLt_irrefl as]

theorem charListLt_trans : ∀ (as bs cs : List Char),
    charListLt as bs = true → charListLt bs cs = true → charListLt as cs = true
  | [], [], _, h1, _ => by simp [charListLt] at h1
  | [], _ :: _, [], _, h2 => by simp [charListLt] at h2
  | [], _ :: _, _ :: _, _, _ => rfl
  | _ :: _, [], _, h1, _ => by simp [charListLt] at h1
  | _ :: _, _ :: _, [], _, h2 => by simp [charListLt] at h2
  | a :: as, b :: bs, c :: cs, h1, h2 => by
    simp only [charListLt] at h1 h2 ⊢
    by_cases hab : a.toNat < b.toNat
    · by_cases hbc : b.toNat < c.toNat
      · simp [Nat.lt_trans hab hbc]
      · rw [if_neg hbc] at h2
        by_cases hcb : c.toNat < b.toNat
        · rw [if_pos hcb] at h2; exact absurd h2 (by simp)
        · have hbceq : b.toNat = c.toNat :=
            Nat.le_antisymm (Nat.le_of_not_lt hcb) (Nat.le_of_not_lt hbc)
          simp [hbceq ▸ hab]
    · rw [if_neg hab] at h1
      by_cases hba : b.toNat < a.toNat
      · rw [if_pos hba] at h1; exact absurd h1 (by simp)
      · have habeq : a.toNat = b.toNat :=
          Nat.le_antisymm (Nat.le_of_not_lt hba) (Nat.le_of_not_lt hab)
        rw [if_neg hba] at h1
        by_cases hbc : b.toNat < c.toNat
        · simp [habeq ▸ hbc]
        · rw [if_neg hbc] at h2
          by_cases hcb : c.toNat < b.toNat
          · rw [if_pos hcb] at h2; exact absurd h2 (by simp)
          · rw [if_neg hcb] at h2
            have hac : ¬ a.toNat < c.toNat := by omega
            have hca : ¬ c.toNat < a.toNat := by omega
            rw [if_neg hac, if_neg hca]
            exact charListLt_trans as bs cs h1 h2

theorem charListLt_connex : ∀ (as bs : List Char),
    charListLt as bs = false → charListLt bs as = false → as = bs
  | [], [], _, _ => rfl
  | [], _ :: _, h1, _ => by simp [charListLt] at h1
  | _ :: _, [], _, h2 => by simp [charListLt] at h2
  | a :: as, b :: bs, h1, h2 => by
    simp only [charListLt] at h1 h2
    by_cases hab : a.toNat < b.toNat
    · rw [if_pos hab] at h1; exact absurd h1 (by simp)
    · rw [if_neg hab] at h1
      by_cases hba : b.toNat < a.toNat
      · rw [if_pos hba] at h2; exact absurd h2 (by simp)
      · rw [if_neg hba] at h1
        rw [if_neg hba, if_neg hab] at h2
        have habeq : a.toNat = b.toNat :=
          Nat.le_antisymm (Nat.le_of_not_lt hba) (Nat.le_of_not_lt hab)
        have hchar : a = b := Char.ext (UInt32.ext habeq)
        rw [hchar, charListLt_connex as bs h1 h2]

theorem strLtP_trans {a b c : String} (h1 : strLtP a b) (h2 : strLtP b c) : strLtP a c :=
  charListLt_trans _ _ _ h1 h2

theorem strLtP_irrefl (a : String) : ¬ strLtP a a := by
  simp [strLtP, charListLt_irrefl]

theorem strLtP_or_eq (a b : String) : strLtP a b ∨ strLtP b a ∨ a = b := by
  by_cases h1 : charListLt a.data b.data = true
  · exact Or.inl h1
  · by_cases h2 : charListLt b.data a.data = true
    · exact Or.inr (Or.inl h2)
    · exact Or.inr (Or.inr (String.ext
        (charListLt_connex _ _ (Bool.eq_false_iff.mpr h1) (Bool.eq_false_iff.mpr h2))))

instance : IsTrans Row mergeKeyLE := ⟨by
  rintro a b c (hab | ⟨hab, hab2⟩) (hbc | ⟨hbc, hbc2⟩)
  · exact Or.inl (strLtP_trans hab hbc)
  · exact Or.inl (hbc ▸ hab)
  · exact Or.inl (show strLtP a.event_id_cnty c.event_id_cnty by rw [hab]; exact hbc)
  · exact Or.inr ⟨hab.trans hbc, le_trans hab2 hbc2⟩⟩

instance : IsTotal Row mergeKeyLE := ⟨by
  intro a b
  rcases strLtP_or_eq a.event_id_cnty b.event_id_cnty with h | h | h
  · exact Or.inl (Or.inl h)
  · exact Or.inr (Or.inl h)
  · rcases le_total a.timestamp b.timestamp with h2 | h2
    · exact Or.inl (Or.inr ⟨h, h2⟩)
    · exact Or.inr (Or.inr ⟨h.symm, h2⟩)⟩

theorem strLeP_trans {a b c : String} (h1 : strLeP a b) (h2 : strLeP b c) : strLeP a c := by
  rcases h1 with h1 | h1 <;> rcases h2 with h2 | h2
  · exact Or.inl (strLtP_trans h1 h2)
  · exact Or.inl (h2 ▸ h1)
  · rw [h1]; exact Or.inl h2
  · exact Or.inr (h1.trans h2)

theorem strLeP_total (a b : String) : strLeP a b ∨ strLeP b a := by
  rcases strLtP_or_eq a b with h | h | h
  · exact Or.inl (Or.inl h)
  · exact Or.inr (Or.inl h)
  · exact Or.inl (Or.inr h)

instance : IsTrans Row dateIdLE := ⟨by
  rintro a b c (hab | ⟨hab, hab2⟩) (hbc | ⟨hbc, hbc2⟩)
  · exact Or.inl (lt_trans hab hbc)
  · exact Or.inl (hbc ▸ hab)
  · exact Or.inl (show a.event_date < c.event_date by rw [hab]; exact hbc)
  · exact Or.inr ⟨hab.trans hbc, strLeP_trans hab2 hbc2⟩⟩

instance : IsTotal Row dateIdLE := ⟨by
  intro a b
  rcases lt_trichotomy a.event_date b.event_date with h | h | h
  · exact Or.inl (Or.inl h)
  · rcases strLeP_total a.event_id_cnty b.event_id_cnty with h2 | h2
    · exact Or.inl (Or.inr ⟨h, h2⟩)
    · exact Or.inr (Or.inr ⟨h.symm, h2⟩)
  · exact Or.inr (Or.inl h)⟩

instance : IsTrans (Nat × String) bySeqNumLE := ⟨by
  intro a b c hab hbc
  exact Nat.le_trans hab hbc⟩

instance : IsTotal (Nat × String) bySeqNumLE := ⟨by
  intro a b
  exact Nat.le_total a.1 b.1⟩

/-! ### Properties of `dropDuplicatesKeepLast` -/

theorem dropDuplicatesKeepLast_sublist : ∀ l : List Row, (dropDuplicatesKeepLast l).Sublist l
  | [] => .slnil
  | r :: rest => by
    unfold dropDuplicatesKeepLast
    split
    · exact (dropDuplicatesKeepLast_sublist rest).cons r
    · exact (dropDuplicatesKeepLast_sublist rest).cons₂ r

theorem dropDuplicatesKeepLast_nodup : ∀ l : List Row, (rowIds (dropDuplicatesKeepLast l)).Nodup
  | [] => by simp [dropDuplicatesKeepLast, rowIds]
  | r :: rest => by
    unfold dropDuplicatesKeepLast
    split
    · exact dropDuplicatesKeepLast_nodup rest
    · rename_i hany
      simp only [rowIds, List.map_cons, List.nodup_cons]
      refine ⟨?_, dropDuplicatesKeepLast_nodup rest⟩
      intro hmem
      rcases List.mem_map.mp hmem with ⟨s, hs, hkey⟩
      exact hany (List.any_eq_true.mpr
        ⟨s, (dropDuplicatesKeepLast_sublist rest).subset hs, by simp [hkey]⟩)

theorem mem_rowIds_dropDuplicatesKeepLast {k : String} :
    ∀ l : List Row, k ∈ rowIds l → k ∈ rowIds (dropDuplicatesKeepLast l)
  | [], h => by simp [rowIds] at h
  | r :: rest, h => by
    unfold dropDuplicatesKeepLast
    rcases List.mem_cons.mp h with hk | hk
    · split
      · rename_i hany
        rcases List.any_eq_true.mp hany with ⟨s, hs, hkey⟩
        have : k ∈ rowIds rest := by
          rw [hk]
          exact List.mem_map.mpr ⟨s, hs, by simpa using hkey⟩
        exact mem_rowIds_dropDuplicatesKeepLast rest this
      · simp only [rowIds, List.map_cons]
        exact List.mem_cons.mpr (Or.inl hk)
    · split
      · exact mem_rowIds_dropDuplicatesKeepLast rest hk
      · simp only [rowIds, List.map_cons]
        exact List.mem_cons.mpr (Or.inr (mem_rowIds_dropDuplicatesKeepLast rest hk))

theorem getLast?_cons_of_ne_nil {α : Type} {a : α} {l : List α} (h : l ≠ []) :
    (a :: l).getLast? = l.getLast? := by
  cases l with
  | nil => exact absurd rfl h
  | cons b t => exact List.getLast?_cons_cons

theorem dropDuplicatesKeepLast_mem_iff : ∀ (l : List Row) (r : Row),
    r ∈ dropDuplicatesKeepLast l ↔
      (l.filter (fun s => s.event_id_cnty == r.event_id_cnty)).getLast? = some r
  | [], r => by simp [dropDuplicatesKeepLast]
  | r0 :: rest, r => by
    unfold dropDuplicatesKeepLast
    by_cases hany : rest.any (fun s => s.event_id_cnty == r0.event_id_cnty)
    · rw [if_pos hany]
      by_cases hk : r0.event_id_cnty == r.event_id_cnty
      · have hkeq : r0.event_id_cnty = r.event_id_cnty := by simpa using hk
        rcases List.any_eq_true.mp hany with ⟨s, hs, hkey⟩
        have hskey : s.event_id_cnty = r.event_id_cnty := by
          have : s.event_id_cnty = r0.event_id_cnty := by simpa using hkey
          exact this.trans hkeq
        have hne : rest.filter (fun s => s.event_id_cnty == r.event_id_cnty) ≠ [] := by
          intro hnil
          have := List.filter_eq_nil_iff.mp hnil s hs
          simp [hskey] at this
        rw [List.filter_cons, if_pos hk, getLast?_cons_of_ne_nil hne]
        exact dropDuplicatesKeepLast_mem_iff rest r
      · rw [List.filter_cons, if_neg hk]
        exact dropDuplicatesKeepLast_mem_iff rest r
    · rw [if_neg hany]
      have hnone : ∀ s ∈ rest, s.event_id_cnty ≠ r0.event_id_cnty := by
        intro s hs heq
        exact hany (List.any_eq_true.mpr ⟨s, hs, by simp [heq]⟩)
      by_cases hk : r0.event_id_cnty == r.event_id_cnty
      · have hkeq : r0.event_id_cnty = r.event_id_cnty := by simpa using hk
        have hnil : rest.filter (fun s => s.event_id_cnty == r.event_id_cnty) = [] := by
          rw [List.filter_eq_nil_iff]
          intro s hs
          simp only [beq_iff_eq]
          exact fun heq => hnone s hs (heq.trans hkeq.symm)
        rw [List.filter_cons, if_pos hk, hnil]
        constructor
        · intro hmem
          rcases List.mem_cons.mp hmem with h | h
          · rw [h]; simp
          · exfalso
            have hr : r ∈ rest := (dropDuplicatesKeepLast_sublist rest).subset h
            exact hnone r hr hkeq.symm
        · intro h
          have : r0 = r := by injection h
          exact List.mem_cons.mpr (Or.inl this.symm)
      · rw [List.filter_cons, if_neg hk]
        constructor
        · intro hmem
          rcases List.mem_cons.mp hmem with h | h
          · exfalso; rw [h] at hk; simp at hk
          · exact (dropDuplicatesKeepLast_mem_iff rest r).mp h
        · intro h
          exact List.mem_cons.mpr (Or.inr ((dropDuplicatesKeepLast_mem_iff rest r).mpr h))

/-! ### Retention of the strictly-latest version -/

theorem getLast?_strict_max : ∀ (l : List Row) (v : Row),
    l.Pairwise (fun a b => a.timestamp ≤ b.timestamp) → v ∈ l →
    (∀ w ∈ l, w ≠ v → w.timestamp < v.timestamp) → l.getLast? = some v
  | [], v, _, hv, _ => absurd hv (List.not_mem_nil v)
  | [a], v, _, hv, _ => by
    have : v = a := by simpa using hv
    rw [this]; simp
  | a :: b :: t, v, hpw, hv, hmax => by
    rw [List.getLast?_cons_cons]
    have hvt : v ∈ b :: t := by
      rcases List.mem_cons.mp hv with h | h
      · by_contra hnot
        have hb : b ≠ v := fun he => hnot (he ▸ List.mem_cons_self b t)
        have h1 : b.timestamp < v.timestamp :=
          hmax b (List.mem_cons.mpr (Or.inr (List.mem_cons_self b t))) hb
        have h2 : a.timestamp ≤ b.timestamp :=
          (List.pairwise_cons.mp hpw).1 b (List.mem_cons_self b t)
        rw [← h] at h2
        exact absurd (lt_of_le_of_lt h2 h1) (lt_irrefl _)
      · exact h
    exact getLast?_strict_max (b :: t) v (List.pairwise_cons.mp hpw).2 hvt
      (fun w hw hne => hmax w (List.mem_cons_of_mem a hw) hne)

theorem mem_dropDuplicates_of_strict_max {l : List Row} {v : Row}
    (hsort : l.Pairwise mergeKeyLE) (hv : v ∈ l)
    (hmax : ∀ w ∈ l, w.event_id_cnty = v.event_id_cnty → w ≠ v → w.timestamp < v.timestamp) :
    v ∈ dropDuplicatesKeepLast l := by
  rw [dropDuplicatesKeepLast_mem_iff]
  apply getLast?_strict_max
  · have h1 : (l.filter (fun s => s.event_id_cnty == v.event_id_cnty)).Pairwise mergeKeyLE :=
      List.Pairwise.sublist (List.filter_sublist l) hsort
    refine h1.imp_of_mem ?_
    intro a b ha hb hr
    have hka : a.event_id_cnty = v.event_id_cnty := by
      simpa using (List.mem_filter.mp ha).2
    have hkb : b.event_id_cnty = v.event_id_cnty := by
      simpa using (List.mem_filter.mp hb).2
    rcases hr with h | ⟨_, h⟩
    · exfalso
      have hab : a.event_id_cnty = b.event_id_cnty := hka.trans hkb.symm
      exact strLtP_irrefl _ (hab ▸ h)
    · exact h
  · exact List.mem_filter.mpr ⟨hv, by simp⟩
  · intro w hw hne
    have hmem := List.mem_filter.mp hw
    exact hmax w hmem.1 (by simpa using hmem.2) hne

theorem filter_eq_singleton_of_nodup : ∀ (l : List Row) (v : Row),
    (rowIds l).Nodup → v ∈ l →
    l.filter (fun s => s.event_id_cnty == v.event_id_cnty) = [v]
  | [], v, _, hv => absurd hv (List.not_mem_nil v)
  | a :: t, v, hnd, hv => by
    simp only [rowIds, List.map_cons, List.nodup_cons] at hnd
    by_cases hk : a.event_id_cnty == v.event_id_cnty
    · have heq : a.event_id_cnty = v.event_id_cnty := by simpa using hk
      by_cases hav : a = v
      · subst hav
        rw [List.filter_cons, if_pos hk]
        have hnil : t.filter (fun s => s.event_id_cnty == a.event_id_cnty) = [] := by
          rw [List.filter_eq_nil_iff]
          intro s hs
          simp only [beq_iff_eq]
          intro hkey
          exact hnd.1 (hkey ▸ List.mem_map_of_mem (fun r => r.event_id_cnty) hs)
        rw [hnil]
      · exfalso
        have hvt : v ∈ t := (List.mem_cons.mp hv).resolve_left (fun h => hav h.symm)
        exact hnd.1 (heq ▸ List.mem_map_of_mem (fun r => r.event_id_cnty) hvt)
    · rw [List.filter_cons, if_neg hk]
      have hvt : v ∈ t := by
        rcases List.mem_cons.mp hv with h | h
        · exfalso; rw [h] at hk; simp at hk
        · exact h
      exact filter_eq_singleton_of_nodup t v hnd.2 hvt

/-! ### Shape of a successful merge -/

theorem concat_two_ok_shape {df1 df2 out : List Row}
    (h : _concat_two_dfs df1 df2 = .ok out) :
    out = List.insertionSort dateIdLE
        (dropDuplicatesKeepLast (List.insertionSort mergeKeyLE (df1 ++ df2))) := by
  unfold _concat_two_dfs at h
  split at h
  · exact absurd h (by simp)
  · split at h
    · exact absurd h (by simp)
    · exact (Except.ok.inj h).symm

theorem merge_result_nodup {df1 df2 out : List Row}
    (h : _concat_two_dfs df1 df2 = .ok out) : (rowIds out).Nodup := by
  rw [concat_two_ok_shape h]
  have hperm : List.insertionSort dateIdLE
      (dropDuplicatesKeepLast (List.insertionSort mergeKeyLE (df1 ++ df2))) |>.Perm
      (dropDuplicatesKeepLast (List.insertionSort mergeKeyLE (df1 ++ df2))) :=
    List.perm_insertionSort dateIdLE _
  simp only [rowIds]
  exact ((hperm.map (fun r => r.event_id_cnty)).nodup_iff).mpr
    (by simpa [rowIds] using
      dropDuplicatesKeepLast_nodup (List.insertionSort mergeKeyLE (df1 ++ df2)))

theorem merge_step_sorted {df1 df2 out : List Row}
    (h : _concat_two_dfs df1 df2 = .ok out) : List.Sorted dateIdLE out := by
  rw [concat_two_ok_shape h]
  exact List.sorted_insertionSort dateIdLE _

/-! ### Claim theorems: the contiguity and empty-shard checks -/

/-- C2: for every pair of non-empty tables, the merge fails with the
contiguity error if and only if the maximum `event_date` of `df1` is strictly
less than the minimum `event_date` of `df2`; when the two values are equal or
the ranges overlap, the merge succeeds. -/
theorem merge_gap_error_iff (df1 df2 : List Row) (h1 : df1 ≠ []) (h2 : df2 ≠ []) :
    (_concat_two_dfs df1 df2 = .error overlapMsg ↔
      maxEventDate df1 < minEventDate df2) ∧
    (¬ maxEventDate df1 < minEventDate df2 →
      ∃ out, _concat_two_dfs df1 df2 = .ok out) := by
  have he : (df1.isEmpty || df2.isEmpty) = false := by
    simp [List.isEmpty_iff, h1, h2]
  refine ⟨⟨?_, ?_⟩, ?_⟩
  · intro h
    unfold _concat_two_dfs at h
    rw [he] at h
    simp only [Bool.false_eq_true, if_false] at h
    split at h
    · assumption
    · exact absurd h (by simp)
  · intro hlt
    unfold _concat_two_dfs
    rw [he]
    simp only [Bool.false_eq_true, if_false, if_pos hlt]
  · intro hnlt
    refine ⟨List.insertionSort dateIdLE
      (dropDuplicatesKeepLast (List.insertionSort mergeKeyLE (df1 ++ df2))), ?_⟩
    unfold _concat_two_dfs
    rw [he]
    simp only [Bool.false_eq_true, if_false, if_neg hnlt]

/-- Witness for `merge_gap_error_iff` on concrete shards with a date gap on
one side of the biconditional and, for touching ranges, a successful merge. -/
theorem merge_gap_error_iff_witness :
    ((_concat_two_dfs [⟨"A", 5, 1, "f1", "x"⟩] [⟨"B", 9, 1, "f2", "y"⟩] = .error overlapMsg ↔
        maxEventDate [⟨"A", 5, 1, "f1", "x"⟩] < minEventDate [⟨"B", 9, 1, "f2", "y"⟩]) ∧
      (¬ maxEventDate [⟨"A", 5, 1, "f1", "x"⟩] < minEventDate [⟨"B", 9, 1, "f2", "y"⟩] →
        ∃ out, _concat_two_dfs [⟨"A", 5, 1, "f1", "x"⟩] [⟨"B", 9, 1, "f2", "y"⟩] = .ok out)) :=
  merge_gap_error_iff [⟨"A", 5, 1, "f1", "x"⟩] [⟨"B", 9, 1, "f2", "y"⟩]
    (by decide) (by decide)

/-- C8: merging fails whenever either input table is empty, with the
empty-shard error (not the contiguity error): the empty check is decided
before any contiguity comparison. -/
theorem merge_empty_error (df1 df2 : List Row) (h : df1 = [] ∨ df2 = []) :
    _concat_two_dfs df1 df2 = .error emptyShardMsg ∧ emptyShardMsg ≠ overlapMsg := by
  have he : (df1.isEmpty || df2.isEmpty) = true := by
    rcases h with h | h <;> simp [h]
  constructor
  · unfold _concat_two_dfs
    rw [he]
    simp
  · decide

/-- Witness for `merge_empty_error`: merging a non-empty table with an empty
one fails with the empty-shard error even though no date gap exists. -/
theorem merge_empty_error_witness :
    _concat_two_dfs [⟨"A", 5, 1, "f1", "x"⟩] [] = .error emptyShardMsg ∧
      emptyShardMsg ≠ overlapMsg :=
  merge_empty_error [⟨"A", 5, 1, "f1", "x"⟩] [] (Or.inr rfl)

/-! ### Claim theorems: deduplication -/

/-- C1: for every merge of two non-empty tables with overlapping dates and
every event identifier appearing in both inputs, the merged result retains
exactly one row for that identifier; and when one version has a strictly
greater `timestamp` than all other versions of that identifier, the retained
row (content and `_orig_fname` provenance included) is that version. -/
theorem merge_retains_unique_latest (df1 df2 out : List Row) (k : String)
    (hok : _concat_two_dfs df1 df2 = .ok out)
    (hk1 : k ∈ rowIds df1) (_hk2 : k ∈ rowIds df2) :
    (out.filter (fun r => r.event_id_cnty == k)).length = 1 ∧
    ∀ v ∈ df1 ++ df2, v.event_id_cnty = k →
      (∀ w ∈ df1 ++ df2, w.event_id_cnty = k → w ≠ v → w.timestamp < v.timestamp) →
      out.filter (fun r => r.event_id_cnty == k) = [v] := by
  have hshape := concat_two_ok_shape hok
  set s := List.insertionSort mergeKeyLE (df1 ++ df2) with hs
  set d := dropDuplicatesKeepLast s with hd
  have hperm_out_d : out.Perm d := by
    rw [hshape]; exact List.perm_insertionSort dateIdLE d
  have hperm_s_u : s.Perm (df1 ++ df2) := List.perm_insertionSort mergeKeyLE (df1 ++ df2)
  have hnodup_out : (rowIds out).Nodup := merge_result_nodup hok
  constructor
  · have hk_u : k ∈ rowIds (df1 ++ df2) := by
      simp only [rowIds, List.map_append, List.mem_append]
      exact Or.inl (by simpa [rowIds] using hk1)
    have hk_s : k ∈ rowIds s := by
      simpa [rowIds] using ((hperm_s_u.map (fun r => r.event_id_cnty)).mem_iff).mpr
        (by simpa [rowIds] using hk_u)
    have hk_d : k ∈ rowIds d := mem_rowIds_dropDuplicatesKeepLast s hk_s
    have hk_out : k ∈ rowIds out := by
      simpa [rowIds] using ((hperm_out_d.map (fun r => r.event_id_cnty)).mem_iff).mpr
        (by simpa [rowIds] using hk_d)
    rcases List.mem_map.mp (by simpa [rowIds] using hk_out) with ⟨r, hr, hkey⟩
    have hfil := filter_eq_singleton_of_nodup out r hnodup_out hr
    rw [← hkey, hfil]
    rfl
  · intro v hv hkey hmax
    have hv_s : v ∈ s := hperm_s_u.mem_iff.mpr hv
    have hsorted_s : s.Pairwise mergeKeyLE :=
      List.sorted_insertionSort mergeKeyLE (df1 ++ df2)
    have hmax_s : ∀ w ∈ s, w.event_id_cnty = v.event_id_cnty → w ≠ v →
        w.timestamp < v.timestamp := by
      intro w hw hkw hne
      exact hmax w (hperm_s_u.mem_iff.mp hw) (hkw.trans hkey) hne
    have hv_d : v ∈ d := mem_dropDuplicates_of_strict_max hsorted_s hv_s hmax_s
    have hv_out : v ∈ out := hperm_out_d.mem_iff.mpr hv_d
    have hfil := filter_eq_singleton_of_nodup out v hnodup_out hv_out
    rw [← hkey]
    exact hfil

/-- Inputs of the witness for `merge_retains_unique_latest`. -/
def w1df1 : List Row := [⟨"A", 0, 1, "f1", "x"⟩, ⟨"B", 0, 5, "f1", "y"⟩]

/-- Second input of the witness for `merge_retains_unique_latest`. -/
def w1df2 : List Row := [⟨"A", 0, 9, "f2", "z"⟩]

/-- Merged output of the witness for `merge_retains_unique_latest`. -/
def w1out : List Row := [⟨"A", 0, 9, "f2", "z"⟩, ⟨"B", 0, 5, "f1", "y"⟩]

/-- Witness for `merge_retains_unique_latest`: the id `A` appears in both
shards; the strictly-latest version (timestamp 9, from `f2`) is retained. -/
theorem merge_retains_unique_latest_witness :
    (w1out.filter (fun r => r.event_id_cnty == "A")).length = 1 ∧
    ∀ v ∈ w1df1 ++ w1df2, v.event_id_cnty = "A" →
      (∀ w ∈ w1df1 ++ w1df2, w.event_id_cnty = "A" → w ≠ v → w.timestamp < v.timestamp) →
      w1out.filter (fun r => r.event_id_cnty == "A") = [v] :=
  merge_retains_unique_latest w1df1 w1df2 w1out "A" (by decide) (by decide) (by decide)

/-- C10: a successful merge yields unique `event_id_cnty` values even when
the input tables themselves contain duplicate identifiers, and a version that
strictly dominates all other rows of its identifier (across the whole
concatenated union, within-shard rows included) is the one retained. -/
theorem merge_unique_ids_any_inputs (df1 df2 out : List Row)
    (hok : _concat_two_dfs df1 df2 = .ok out) :
    (rowIds out).Nodup ∧
    ∀ v ∈ df1 ++ df2,
      (∀ w ∈ df1 ++ df2, w.event_id_cnty = v.event_id_cnty → w ≠ v →
        w.timestamp < v.timestamp) →
      out.filter (fun r => r.event_id_cnty == v.event_id_cnty) = [v] := by
  refine ⟨merge_result_nodup hok, ?_⟩
  intro v hv hmax
  have hshape := concat_two_ok_shape hok
  set s := List.insertionSort mergeKeyLE (df1 ++ df2) with hs
  set d := dropDuplicatesKeepLast s with hd
  have hperm_out_d : out.Perm d := by
    rw [hshape]; exact List.perm_insertionSort dateIdLE d
  have hperm_s_u : s.Perm (df1 ++ df2) := List.perm_insertionSort mergeKeyLE (df1 ++ df2)
  have hv_s : v ∈ s := hperm_s_u.mem_iff.mpr hv
  have hsorted_s : s.Pairwise mergeKeyLE :=
    List.sorted_insertionSort mergeKeyLE (df1 ++ df2)
  have hmax_s : ∀ w ∈ s, w.event_id_cnty = v.event_id_cnty → w ≠ v →
      w.timestamp < v.timestamp := by
    intro w hw hkw hne
    exact hmax w (hperm_s_u.mem_iff.mp hw) hkw hne
  have hv_d : v ∈ d := mem_dropDuplicates_of_strict_max hsorted_s hv_s hmax_s
  have hv_out : v ∈ out := hperm_out_d.mem_iff.mpr hv_d
  exact filter_eq_singleton_of_nodup out v (merge_result_nodup hok) hv_out

/-- First input of the witness for `merge_unique_ids_any_inputs`: it contains
a duplicated identifier. -/
def w10df1 : List Row := [⟨"A", 0, 1, "f1", "x"⟩, ⟨"A", 0, 3, "f1", "y"⟩]

/-- Second input of the witness for `merge_unique_ids_any_inputs`. -/
def w10df2 : List Row := [⟨"A", 0, 2, "f2", "z"⟩]

/-- Merged output of the witness for `merge_unique_ids_any_inputs`. -/
def w10out : List Row := [⟨"A", 0, 3, "f1", "y"⟩]

/-- Witness for `merge_unique_ids_any_inputs`: the first shard holds two rows
of id `A`; the merge still has unique ids and keeps the strict-max row. -/
theorem merge_unique_ids_any_inputs_witness :
    (rowIds w10out).Nodup ∧
    ∀ v ∈ w10df1 ++ w10df2,
      (∀ w ∈ w10df1 ++ w10df2, w.event_id_cnty = v.event_id_cnty → w ≠ v →
        w.timestamp < v.timestamp) →
      w10out.filter (fun r => r.event_id_cnty == v.event_id_cnty) = [v] :=
  merge_unique_ids_any_inputs w10df1 w10df2 w10out (by decide)

/-! ### Claim theorems: the fold invariant and the final sort order -/

/-- C3: after every fold step of the merge, for every number of shards and
every shard contents that merge successfully, the accumulator table contains
zero duplicate `event_id_cnty` values (the assertion of `cli.py` line 63
never fires). -/
theorem fold_accumulator_nodup : ∀ (first : List Row) (shards accs : List (List Row)),
    concatAccums first shards = .ok accs → ∀ acc ∈ accs, (rowIds acc).Nodup
  | _, [], accs, h => by
    simp only [concatAccums] at h
    have haccs : accs = [] := (Except.ok.inj h).symm
    subst haccs
    intro acc hacc
    exact absurd hacc (List.not_mem_nil acc)
  | first, next :: rest, accs, h => by
    simp only [concatAccums] at h
    split at h
    · exact absurd h (by simp)
    · rename_i c hc
      split at h
      · exact absurd h (by simp)
      · rename_i accs' haccs
        have heq : accs = c :: accs' := (Except.ok.inj h).symm
        subst heq
        intro acc hacc
        rcases List.mem_cons.mp hacc with h1 | h1
        · exact h1 ▸ merge_result_nodup hc
        · exact fold_accumulator_nodup c rest accs' haccs acc h1

/-- First shard of the witness for `fold_accumulator_nodup`. -/
def w3a : List Row := [⟨"A", 0, 1, "f1", "x"⟩]

/-- Later shards of the witness for `fold_accumulator_nodup`. -/
def w3shards : List (List Row) :=
  [[⟨"B", 0, 2, "f2", "y"⟩], [⟨"A", 0, 3, "f3", "z"⟩]]

/-- Accumulator values of the witness run for `fold_accumulator_nodup`. -/
def w3accs : List (List Row) :=
  [[⟨"A", 0, 1, "f1", "x"⟩, ⟨"B", 0, 2, "f2", "y"⟩],
   [⟨"A", 0, 3, "f3", "z"⟩, ⟨"B", 0, 2, "f2", "y"⟩]]

/-- Witness for `fold_accumulator_nodup`: a three-shard run; both
intermediate accumulators have duplicate-free ids. -/
theorem fold_accumulator_nodup_witness :
    (rowIds [⟨"A", 0, 1, "f1", "x"⟩, ⟨"B", 0, 2, "f2", "y"⟩]).Nodup ∧
    (rowIds [⟨"A", 0, 3, "f3", "z"⟩, ⟨"B", 0, 2, "f2", "y"⟩]).Nodup :=
  ⟨fold_accumulator_nodup w3a w3shards w3accs (by decide)
      [⟨"A", 0, 1, "f1", "x"⟩, ⟨"B", 0, 2, "f2", "y"⟩] (by simp [w3accs]),
    fold_accumulator_nodup w3a w3shards w3accs (by decide)
      [⟨"A", 0, 3, "f3", "z"⟩, ⟨"B", 0, 2, "f2", "y"⟩] (by simp [w3accs])⟩

/-- C4: for every successful run (at least one fold step, as guaranteed by
discovery requiring two shards), the final consolidated table is sorted
ascending by the pair `(event_date, event_id_cnty)`. -/
theorem final_output_sorted : ∀ (first : List Row) (shards : List (List Row)) (out : List Row),
    shards ≠ [] → concatLoop first shards = .ok out → List.Sorted dateIdLE out
  | _, [], _, hne, _ => absurd rfl hne
  | first, next :: rest, out, _, h => by
    simp only [concatLoop] at h
    split at h
    · exact absurd h (by simp)
    · rename_i c hc
      cases rest with
      | nil =>
        simp only [concatLoop] at h
        exact (Except.ok.inj h) ▸ merge_step_sorted hc
      | cons r2 rs =>
        exact final_output_sorted c (r2 :: rs) out (by simp) h

/-- First shard of the witness for `final_output_sorted`. -/
def w4a : List Row := [⟨"B", 0, 2, "f1", "y"⟩]

/-- Later shards of the witness for `final_output_sorted`. -/
def w4shards : List (List Row) := [[⟨"A", 0, 1, "f2", "x"⟩]]

/-- Final output of the witness run for `final_output_sorted`. -/
def w4out : List Row := [⟨"A", 0, 1, "f2", "x"⟩, ⟨"B", 0, 2, "f1", "y"⟩]

/-- Witness for `final_output_sorted` on a concrete two-shard run. -/
theorem final_output_sorted_witness : List.Sorted dateIdLE w4out :=
  final_output_sorted w4a w4shards w4out (by decide) (by decide)

/-! ### Properties of shard discovery -/

theorem classifyCsvs_snd : ∀ l : List String,
    (classifyCsvs l).2 = l.filter (fun n => !(isOutputFile n) && (parseSeqNum n).isNone)
  | [] => rfl
  | name :: rest => by
    simp only [classifyCsvs, List.filter_cons]
    by_cases ho : isOutputFile name
    · simp [ho, classifyCsvs_snd rest]
    · cases hp : parseSeqNum name with
      | some p => simp [ho, hp, classifyCsvs_snd rest]
      | none => simp [ho, hp, classifyCsvs_snd rest]

theorem classifyCsvs_fst : ∀ l : List String,
    (classifyCsvs l).1 = l.filterMap (fun n =>
      if isOutputFile n then none else (parseSeqNum n).map (fun p => (p, n)))
  | [] => rfl
  | name :: rest => by
    simp only [classifyCsvs, List.filterMap_cons]
    by_cases ho : isOutputFile name
    · simp [ho, classifyCsvs_fst rest]
    · cases hp : parseSeqNum name with
      | some p => simp [ho, hp, classifyCsvs_fst rest]
      | none => simp [ho, hp, classifyCsvs_fst rest]

theorem classifyCsvs_fst_mem {l : List String} {pr : Nat × String}
    (h : pr ∈ (classifyCsvs l).1) :
    pr.2 ∈ l ∧ isOutputFile pr.2 = false ∧ parseSeqNum pr.2 = some pr.1 := by
  rw [classifyCsvs_fst] at h
  rcases List.mem_filterMap.mp h with ⟨m, hm, hsome⟩
  by_cases ho : isOutputFile m
  · simp [ho] at hsome
  · simp only [ho, Bool.false_eq_true, if_false] at hsome
    rcases Option.map_eq_some'.mp hsome with ⟨p, hp, hpr⟩
    rw [← hpr]
    exact ⟨hm, by simpa using ho, by simpa using hp⟩

/-! ### Claim theorems: shard discovery -/

/-- C6: discovery fails whenever at least one `.csv` file not beginning with
the reserved output prefix fails the naming pattern; the raised error carries
(and its message enumerates) every such invalid filename, not only the first;
and output-prefixed files are excluded both from this validation and from any
successful result. -/
theorem discovery_rejects_invalid (allCsvs : List String)
    (h : ∃ n ∈ allCsvs, isOutputFile n = false ∧ parseSeqNum n = none) :
    (∃ bad, _get_lexically_sorted_csv_paths allCsvs = .error (.invalidFiles bad) ∧
      ∀ n, (n ∈ bad ↔ n ∈ allCsvs ∧ isOutputFile n = false ∧ parseSeqNum n = none)) ∧
    ∀ (l res : List String),
      _get_lexically_sorted_csv_paths l = .ok res → ∀ n ∈ res, isOutputFile n = false := by
  constructor
  · rcases h with ⟨n0, hn0, ho0, hp0⟩
    have hmem : n0 ∈ (classifyCsvs allCsvs).2 := by
      rw [classifyCsvs_snd]
      exact List.mem_filter.mpr ⟨hn0, by simp [ho0, hp0]⟩
    have hne : ((classifyCsvs allCsvs).2).isEmpty = false := by
      rcases hl : (classifyCsvs allCsvs).2 with _ | ⟨a, t⟩
      · rw [hl] at hmem; exact absurd hmem (List.not_mem_nil n0)
      · rfl
    refine ⟨(classifyCsvs allCsvs).2, ?_, ?_⟩
    · unfold _get_lexically_sorted_csv_paths
      rw [hne]
      simp
    · intro n
      rw [classifyCsvs_snd, List.mem_filter]
      constructor
      · rintro ⟨h1, h2⟩
        simp only [Bool.and_eq_true, Bool.not_eq_true', Option.isNone_iff_eq_none] at h2
        exact ⟨h1, h2.1, h2.2⟩
      · rintro ⟨h1, h2, h3⟩
        exact ⟨h1, by simp [h2, h3]⟩
  · intro l res hres n hn
    unfold _get_lexically_sorted_csv_paths at hres
    split at hres
    · split at hres
      · exact absurd hres (by simp)
      · have hres' := Except.ok.inj hres
        rw [← hres'] at hn
        rcases List.mem_map.mp hn with ⟨pr, hpr, hsnd⟩
        have hpr_valid : pr ∈ (classifyCsvs l).1 :=
          (List.perm_insertionSort bySeqNumLE (classifyCsvs l).1).mem_iff.mp hpr
        have := (classifyCsvs_fst_mem hpr_valid).2.1
        rw [← hsnd]
        exact this
    · exact absurd hres (by simp)

/-- Witness for `discovery_rejects_invalid`: a listing with one valid file,
one invalid file and an old output file; the error names exactly the invalid
file. -/
theorem discovery_rejects_invalid_witness :
    (∃ bad, _get_lexically_sorted_csv_paths
        ["01-acled.csv", "acled_2022.csv", "consolidated_acled.csv"] =
          .error (.invalidFiles bad) ∧
      ∀ n, (n ∈ bad ↔ n ∈ ["01-acled.csv", "acled_2022.csv", "consolidated_acled.csv"] ∧
        isOutputFile n = false ∧ parseSeqNum n = none)) ∧
    ∀ (l res : List String),
      _get_lexically_sorted_csv_paths l = .ok res → ∀ n ∈ res, isOutputFile n = false :=
  discovery_rejects_invalid ["01-acled.csv", "acled_2022.csv", "consolidated_acled.csv"]
    ⟨"acled_2022.csv", by decide, by decide, by decide⟩

theorem insertionSort_pairs_strict (v : List (Nat × String))
    (hnd : (v.map Prod.fst).Nodup) :
    (List.insertionSort bySeqNumLE v).Pairwise (fun p q => p.1 < q.1) := by
  have hsorted : (List.insertionSort bySeqNumLE v).Pairwise bySeqNumLE :=
    List.sorted_insertionSort bySeqNumLE v
  have hperm := List.perm_insertionSort bySeqNumLE v
  have hnd' : ((List.insertionSort bySeqNumLE v).map Prod.fst).Nodup :=
    ((hperm.map Prod.fst).nodup_iff).mpr hnd
  have hne : (List.insertionSort bySeqNumLE v).Pairwise (fun p q => p.1 ≠ q.1) :=
    (List.pairwise_map).mp hnd'
  exact (List.pairwise_and_iff.mpr ⟨hsorted, hne⟩).imp
    (fun h => lt_of_le_of_ne h.1 h.2)

/-- C5, amended: for every directory listing whose non-output `.csv` files
all match the naming pattern, number at least two, and carry pairwise
distinct numeric prefixes, discovery succeeds and returns the shard names
ordered strictly ascending by numeric prefix, independent of the order in
which the filesystem lists them.  (Without the distinct-prefix amendment the
original claim fails: see the counterexample.) -/
theorem discovery_sorted_of_distinct (l : List String)
    (hall : ∀ n ∈ l, isOutputFile n = false → (parseSeqNum n).isSome)
    (hlen : 2 ≤ ((classifyCsvs l).1).length)
    (hnodup : (((classifyCsvs l).1).map Prod.fst).Nodup) :
    ∃ paths, _get_lexically_sorted_csv_paths l = .ok paths ∧
      paths.Pairwise (fun a b => (parseSeqNum a).getD 0 < (parseSeqNum b).getD 0) ∧
      ∀ l', l.Perm l' → _get_lexically_sorted_csv_paths l' = .ok paths := by
  have hinv : (classifyCsvs l).2 = [] := by
    rw [classifyCsvs_snd, List.filter_eq_nil_iff]
    intro n hn
    by_cases ho : isOutputFile n
    · simp [ho]
    · have hs := hall n hn (by simpa using ho)
      rcases Option.isSome_iff_exists.mp hs with ⟨p, hp⟩
      simp [ho, hp]
  refine ⟨(List.insertionSort bySeqNumLE (classifyCsvs l).1).map Prod.snd, ?_, ?_, ?_⟩
  · unfold _get_lexically_sorted_csv_paths
    rw [hinv]
    simp only [List.isEmpty_nil, if_true]
    rw [if_neg (by omega)]
  · rw [List.pairwise_map]
    refine (insertionSort_pairs_strict (classifyCsvs l).1 hnodup).imp_of_mem ?_
    intro p q hp hq hlt
    have hp' : parseSeqNum p.2 = some p.1 :=
      (classifyCsvs_fst_mem
        ((List.perm_insertionSort bySeqNumLE (classifyCsvs l).1).mem_iff.mp hp)).2.2
    have hq' : parseSeqNum q.2 = some q.1 :=
      (classifyCsvs_fst_mem
        ((List.perm_insertionSort bySeqNumLE (classifyCsvs l).1).mem_iff.mp hq)).2.2
    rw [hp', hq']
    simpa using hlt
  · intro l' hperm
    have hinv' : (classifyCsvs l').2 = [] := by
      have hpf : ((classifyCsvs l).2).Perm ((classifyCsvs l').2) := by
        rw [classifyCsvs_snd, classifyCsvs_snd]
        exact hperm.filter _
      rw [hinv] at hpf
      exact hpf.symm.eq_nil
    have hpermv : ((classifyCsvs l).1).Perm ((classifyCsvs l').1) := by
      rw [classifyCsvs_fst, classifyCsvs_fst]
      exact hperm.filterMap _
    have hlen' : ¬ ((classifyCsvs l').1).length < 2 := by
      rw [← hpermv.length_eq]
      omega
    have hnodup' : (((classifyCsvs l').1).map Prod.fst).Nodup :=
      ((hpermv.map Prod.fst).nodup_iff).mp hnodup
    have hpermSorted :
        (List.insertionSort bySeqNumLE (classifyCsvs l).1).Perm
          (List.insertionSort bySeqNumLE (classifyCsvs l').1) :=
      ((List.perm_insertionSort bySeqNumLE _).trans hpermv).trans
        (List.perm_insertionSort bySeqNumLE _).symm
    haveI : IsAntisymm (Nat × String) (fun p q => p.1 < q.1) :=
      ⟨fun p q h1 h2 => absurd (Nat.lt_trans h1 h2) (Nat.lt_irrefl _)⟩
    have heq : List.insertionSort bySeqNumLE (classifyCsvs l).1 =
        List.insertionSort bySeqNumLE (classifyCsvs l').1 :=
      List.eq_of_perm_of_sorted hpermSorted
        (insertionSort_pairs_strict _ hnodup) (insertionSort_pairs_strict _ hnodup')
    unfold _get_lexically_sorted_csv_paths
    rw [hinv']
    simp only [List.isEmpty_nil, if_true]
    rw [if_neg hlen', ← heq]

/-- Witness for `discovery_sorted_of_distinct` on a concrete listing given in
descending prefix order. -/
theorem discovery_sorted_of_distinct_witness :
    ∃ paths, _get_lexically_sorted_csv_paths ["02-acled_2022.csv", "01-acled_2021.csv"] = .ok paths ∧
      paths.Pairwise (fun a b => (parseSeqNum a).getD 0 < (parseSeqNum b).getD 0) ∧
      ∀ l', List.Perm ["02-acled_2022.csv", "01-acled_2021.csv"] l' →
        _get_lexically_sorted_csv_paths l' = .ok paths :=
  discovery_sorted_of_distinct ["02-acled_2022.csv", "01-acled_2021.csv"]
    (by decide) (by decide) (by decide)

/-- Counterexample to C5 as stated: two valid shard files share the numeric
prefix `01`; discovery succeeds on both listing orders but returns different
orders (so the result is not independent of the filesystem listing order),
and the returned paths are not strictly ascending by numeric prefix. -/
theorem discovery_strict_sort_counterexample :
    _get_lexically_sorted_csv_paths ["01-acled_b.csv", "01-acled_a.csv"] =
      .ok ["01-acled_b.csv", "01-acled_a.csv"] ∧
    _get_lexically_sorted_csv_paths ["01-acled_a.csv", "01-acled_b.csv"] =
      .ok ["01-acled_a.csv", "01-acled_b.csv"] ∧
    ¬ List.Pairwise (fun a b => (parseSeqNum a).getD 0 < (parseSeqNum b).getD 0)
      ["01-acled_b.csv", "01-acled_a.csv"] := by
  refine ⟨by decide, by decide, ?_⟩
  intro hpw
  have := List.pairwise_cons.mp hpw
  have h1 := this.1 "01-acled_a.csv" (List.mem_singleton.mpr rfl)
  revert h1
  decide

/-! ### Properties of the schema normalizer -/

theorem lookup_map_getCol (df : ColTable) (L : List String) (c : String) (hc : c ∈ L) :
    List.lookup c (L.map (fun n => (n, getCol df n))) = some (getCol df c) := by
  induction L with
  | nil => exact absurd hc (List.not_mem_nil c)
  | cons a t ih =>
    by_cases hca : c = a
    · subst hca
      simp [List.lookup]
    · have hbe : (c == a) = false := by simp [hca]
      simp only [List.map_cons, List.lookup, hbe]
      exact ih ((List.mem_cons.mp hc).resolve_left hca)

theorem lookup_append_not_mem {β : Type} (l₁ l₂ : List (String × β)) (c : String)
    (h : c ∉ l₁.map Prod.fst) :
    List.lookup c (l₁ ++ l₂) = List.lookup c l₂ := by
  induction l₁ with
  | nil => simp
  | cons a t ih =>
    obtain ⟨k, v⟩ := a
    have hck : c ≠ k := by
      intro he
      exact h (by simp [he])
    have hbe : (c == k) = false := by simp [hck]
    simp only [List.cons_append, List.lookup, hbe]
    exact ih (fun hmem => h (List.mem_cons.mpr (Or.inr hmem)))

theorem getCol_eq (df : ColTable) (c : String) : getCol df c = (df.lookup c).getD [] := rfl

theorem getCol_projection (df : ColTable) (c : String) (hc : c ∈ RETAINED_COLS) :
    getCol (RETAINED_COLS.map (fun n => (n, getCol df n))) c = getCol df c := by
  rw [getCol_eq (RETAINED_COLS.map (fun n => (n, getCol df n))) c,
    lookup_map_getCol df RETAINED_COLS c hc]
  rfl

theorem getCol_append_new (df : ColTable) (c : String) (vals : List Value)
    (h : c ∉ colNames df) : getCol (df ++ [(c, vals)]) c = vals := by
  rw [getCol_eq (df ++ [(c, vals)]) c,
    lookup_append_not_mem df [(c, vals)] c (by simpa [colNames] using h)]
  simp [List.lookup]

/-! ### Claim theorems: the schema normalizer -/

/-- C7: for every input table lacking an `iso3` column (but having a numeric
`iso` column), normalization fails with a validation error naming every
numeric code present in the data but absent from the lookup table whenever at
least one such code exists, and otherwise derives the `iso3` column from the
`iso` column via the static lookup table. -/
theorem format_derives_iso3 (ISO_MAP : List (Value × Value)) (df : ColTable)
    (hno3 : "iso3" ∉ colNames df) (hiso : "iso" ∈ colNames df) :
    ((∃ v ∈ getCol df "iso", ISO_MAP.lookup v = none) →
      ∃ codes, _format_df ISO_MAP df = .error (.unmappedIsoCodes codes) ∧
        ∀ v, (v ∈ codes ↔ v ∈ getCol df "iso" ∧ ISO_MAP.lookup v = none)) ∧
    (∀ out, _format_df ISO_MAP df = .ok out →
      getCol out "iso3" =
        (getCol df "iso").map (fun v => (ISO_MAP.lookup v).getD Value.vNone)) := by
  constructor
  · rintro ⟨v0, hv0, hl0⟩
    have hmem : v0 ∈ (((getCol df "iso").filter
        (fun v => (ISO_MAP.lookup v).isNone)).dedup) :=
      List.mem_dedup.mpr (List.mem_filter.mpr ⟨hv0, by simp [hl0]⟩)
    have hne : ((((getCol df "iso").filter
        (fun v => (ISO_MAP.lookup v).isNone)).dedup)).isEmpty = false := by
      rcases hl : (((getCol df "iso").filter
          (fun v => (ISO_MAP.lookup v).isNone)).dedup) with _ | ⟨a, t⟩
      · rw [hl] at hmem
        exact absurd hmem (List.not_mem_nil v0)
      · rfl
    refine ⟨(((getCol df "iso").filter (fun v => (ISO_MAP.lookup v).isNone)).dedup), ?_, ?_⟩
    · unfold _format_df
      rw [if_neg hno3, if_pos hiso, if_neg (by simp [hne])]
    · intro v
      rw [List.mem_dedup, List.mem_filter]
      simp [Option.isNone_iff_eq_none]
  · intro out hout
    unfold _format_df at hout
    rw [if_neg hno3, if_pos hiso] at hout
    split at hout
    · unfold checkRetained at hout
      split at hout
      · have hval := Except.ok.inj hout
        rw [← hval]
        rw [getCol_projection _ "iso3" (by decide)]
        exact getCol_append_new df "iso3" _ hno3
      · exact absurd hout (by simp)
    · exact absurd hout (by simp)

/-- Witness lookup table for `format_derives_iso3`. -/
def w7map : List (Value × Value) := [(.vInt 123, .vStr "ABC"), (.vInt 456, .vStr "XYZ")]

/-- Witness table for `format_derives_iso3`: no `iso3` column, and the `iso`
column holds the unmapped code 999. -/
def w7df : ColTable := [("iso", [.vInt 123, .vInt 999])]

/-- Witness for `format_derives_iso3`: on `w7df` the unmapped code 999 makes
normalization fail naming exactly the unmapped codes. -/
theorem format_derives_iso3_witness :
    ((∃ v ∈ getCol w7df "iso", w7map.lookup v = none) →
      ∃ codes, _format_df w7map w7df = .error (.unmappedIsoCodes codes) ∧
        ∀ v, (v ∈ codes ↔ v ∈ getCol w7df "iso" ∧ w7map.lookup v = none)) ∧
    (∀ out, _format_df w7map w7df = .ok out →
      getCol out "iso3" =
        (getCol w7df "iso").map (fun v => (w7map.lookup v).getD Value.vNone)) :=
  format_derives_iso3 w7map w7df (by decide) (by decide)

/-- C9: for every input table that already contains an `iso3` column,
normalization never consults the numeric lookup table (its result is the same
for every table), never fails with an unmapped-code error, and passes the
existing `iso3` values through unchanged on success. -/
theorem format_preserves_existing_iso3 (df : ColTable) (h3 : "iso3" ∈ colNames df) :
    (∀ m1 m2 : List (Value × Value), _format_df m1 df = _format_df m2 df) ∧
    (∀ (m : List (Value × Value)) (out : ColTable),
      _format_df m df = .ok out → getCol out "iso3" = getCol df "iso3") ∧
    (∀ (m : List (Value × Value)) (codes : List Value),
      _format_df m df ≠ .error (.unmappedIsoCodes codes)) := by
  refine ⟨?_, ?_, ?_⟩
  · intro m1 m2
    unfold _format_df
    rw [if_pos h3, if_pos h3]
  · intro m out hout
    unfold _format_df at hout
    rw [if_pos h3] at hout
    unfold checkRetained at hout
    split at hout
    · have hval := Except.ok.inj hout
      rw [← hval]
      exact getCol_projection df "iso3" (by decide)
    · exact absurd hout (by simp)
  · intro m codes
    unfold _format_df
    rw [if_pos h3]
    unfold checkRetained
    split
    · simp
    · simp

/-- Witness table for `format_preserves_existing_iso3`: it has an `iso3`
column and an `iso` value (77) unmapped by any table. -/
def w9df : ColTable := [("iso3", [.vStr "GUY"]), ("iso", [.vInt 77])]

/-- Witness for `format_preserves_existing_iso3` on `w9df`. -/
theorem format_preserves_existing_iso3_witness :
    (∀ m1 m2 : List (Value × Value), _format_df m1 w9df = _format_df m2 w9df) ∧
    (∀ (m : List (Value × Value)) (out : ColTable),
      _format_df m w9df = .ok out → getCol out "iso3" = getCol w9df "iso3") ∧
    (∀ (m : List (Value × Value)) (codes : List Value),
      _format_df m w9df ≠ .error (.unmappedIsoCodes codes)) :=
  format_preserves_existing_iso3 w9df (by decide)
